import Mathlib

/-!
Shallow embedding of the version-resolution engine of `cargo-edit`
(`src/fetch.rs`): fuzzy crate-name generation, registry-index lookup,
minimum-toolchain (`rust-version`) parsing and the two version-selection
modes (`read_latest_version` / `read_compatible_version`).

Modelling conventions:
* Crate names are `List Char` (the code works on the bytes of a UTF-8
  string; the only bytes it inspects or writes, `-` and `_`, are ASCII,
  so a char-list model is byte-faithful).
* Machine integers (`u64`, the `u128` mask) are `Nat`; none of the
  modelled arithmetic can overflow (`mask < 2 ^ 10`, version numbers are
  parsed digit strings).
* Fallible Rust functions returning `CargoResult` become `Except` /
  `Option`.
* The external `semver` crate (an out-of-repo collaborator) is modelled
  from the spec where the code relies on it: version/requirement parsing
  and semantic-version precedence.  Precedence is realised by mapping a
  version onto a lexicographic key in an order Mathlib already knows.
-/

/-- Modelled from the spec: one prerelease (or requirement) identifier of
the external semver model:
numeric identifiers order before (below) alphanumeric ones, numeric ones
compare as numbers, alphanumeric ones compare in ASCII order.  This is
exactly the lexicographic sum order. -/
abbrev PreKey := Nat ⊕ₗ String

instance : DecidableEq PreKey := inferInstanceAs (DecidableEq (Nat ⊕ String))

/-- Modelled from the spec: a parsed semantic version of the external
`semver` crate, `major.minor.patch` plus a (possibly empty) list of
prerelease identifiers.  Build metadata is ignored by semver precedence
and not retained. -/
structure Version where
  major : Nat
  minor : Nat
  patch : Nat
  pre : List PreKey
deriving DecidableEq

/-- Modelled from the spec: semver precedence for the prerelease part.
An empty prerelease list ranks above every nonempty one; nonempty lists
compare lexicographically (a strict prefix ranks lower). -/
def Version.preKey (v : Version) : WithTop (List PreKey) :=
  if v.pre.isEmpty then ⊤ else (v.pre : WithTop (List PreKey))

/-- Modelled from the spec: full semver precedence as a lexicographic
key: numeric `major.minor.patch` compared first, then the prerelease
part. -/
def Version.key (v : Version) : Nat ×ₗ (Nat ×ₗ (Nat ×ₗ WithTop (List PreKey))) :=
  toLex (v.major, toLex (v.minor, toLex (v.patch, v.preKey)))

/-- Version is a prerelease iff its prerelease list is nonempty
(`VersionExt::is_prerelease` / semver `is_prerelease`). -/
def Version.isPrerelease (v : Version) : Bool :=
  !v.pre.isEmpty

/-- Decimal digit character for a value below ten. -/
def digitChar (n : Nat) : Char :=
  Char.ofNat (48 + n)

/-- Fueled decimal rendering of a `Nat`; the fuel `n + 1` always
suffices, and the fueled form reduces inside the kernel. -/
def natCharsAux (fuel n : Nat) : List Char :=
  match fuel with
  | 0 => []
  | fuel + 1 =>
    if n < 10 then [digitChar n]
    else natCharsAux fuel (n / 10) ++ [digitChar (n % 10)]

/-- Decimal rendering of a `Nat`, as `u64::to_string` does. -/
def natChars (n : Nat) : List Char :=
  natCharsAux (n + 1) n

/-- Rendering of one prerelease identifier. -/
def renderIdent (p : PreKey) : List Char :=
  match ofLex p with
  | Sum.inl n => natChars n
  | Sum.inr s => s.data

/-- Dot-joined concatenation of identifier renderings. -/
def joinDots : List (List Char) → List Char
  | [] => []
  | [x] => x
  | x :: xs => x ++ '.' :: joinDots xs

/-- Modelled from the spec: `semver::Version::to_string`,
`major.minor.patch` with a `-`-prefixed dot-joined prerelease part when
present. -/
def Version.render (v : Version) : String :=
  String.mk
    (natChars v.major ++ '.' :: natChars v.minor ++ '.' :: natChars v.patch ++
      (if v.pre.isEmpty then [] else '-' :: joinDots (v.pre.map renderIdent)))

/-- Simplified representation of `package.rust-version`
(`RustVersion` in `src/fetch.rs`); ordered lexicographically on the
triple, as Rust `derive(PartialOrd, Ord)` does. -/
structure RustVersion where
  major : Nat
  minor : Nat
  patch : Nat
deriving DecidableEq

/-- Lexicographic key realising the derived ordering of `RustVersion`. -/
def RustVersion.key (rv : RustVersion) : Nat ×ₗ (Nat ×ₗ Nat) :=
  toLex (rv.major, toLex (rv.minor, rv.patch))

/-- One version record of a matched index entry (`CrateVersion` in
`src/fetch.rs`). -/
structure CrateVersion where
  name : String
  version : Version
  rust_version : Option RustVersion
  yanked : Bool
deriving DecidableEq

/-- The resolved dependency produced by the engine: the chosen record
projected to `(name, version string)`, as built by
`Dependency::new(name).set_source(RegistrySource::new(version))`. -/
structure Dependency where
  name : String
  version : String
deriving DecidableEq

/-- Error taxonomy of the resolution engine (`anyhow` errors in the
code, distinguished here by their construction site). -/
inductive ResolutionError where
  /-- Modelled from the spec: `no_crate_err` (defined outside the shown
  sources) builds the `CrateNotFound` error carrying the originally
  requested name. -/
  | crateNotFound (name : String)
  /-- The `NoAvailableVersion` failure of the two selectors, carrying
  the advisory message. -/
  | noAvailableVersion (msg : String)
  /-- A version string of an index record failed semver parsing. -/
  | invalidVersionSpec (text : String)
  /-- A `rust-version` string failed toolchain parsing
  (`InvalidToolchainSpec`). -/
  | invalidToolchainSpec (text : String)
deriving DecidableEq

deriving instance DecidableEq for Except

/-- Advisory message attached to the `NoAvailableVersion` failure, as
written in `read_latest_version` / `read_compatible_version`. -/
def advisoryMsg : String :=
  "No available versions exist. Either all were yanked or only prerelease versions exist. Trying with the --allow-prerelease flag might solve the issue."

/-- Checks whether a version object is a stable release
(`version_is_stable` in `src/fetch.rs`). -/
def version_is_stable (v : CrateVersion) : Bool :=
  !v.version.isPrerelease

/-- The toolchain filter of both selectors, translated from
`rust_version.and_then(|rv| v.rust_version.map(|vr| vr <= rv)).unwrap_or(true)`. -/
def toolchainOk (rust_version : Option RustVersion) (v : CrateVersion) : Bool :=
  (rust_version.bind fun rv =>
    v.rust_version.map fun vr => decide (vr.key ≤ rv.key)).getD true

/-- One step of Rust `Iterator::max_by_key` on the version key: keep the
later element when keys tie (Rust returns the last maximum). -/
def maxStep (acc : Option CrateVersion) (v : CrateVersion) : Option CrateVersion :=
  match acc with
  | none => some v
  | some m => if m.version.key ≤ v.version.key then some v else some m

/-- Rust `versions.iter().max_by_key(|v| v.version.clone())` over the
semver precedence key. -/
def maxByVersionKey (l : List CrateVersion) : Option CrateVersion :=
  l.foldl maxStep none

/-- The filter-and-rank pipeline of `read_latest_version`: the three
filters in source order, then the maximum by version key. -/
def selectLatest (versions : List CrateVersion) (flag_allow_prerelease : Bool)
    (rust_version : Option RustVersion) : Option CrateVersion :=
  maxByVersionKey
    (((versions.filter fun v => flag_allow_prerelease || version_is_stable v).filter
      fun v => !v.yanked).filter (toolchainOk rust_version))

/-- Read latest version from the records (`read_latest_version` in
`src/fetch.rs`). -/
def read_latest_version (versions : List CrateVersion) (flag_allow_prerelease : Bool)
    (rust_version : Option RustVersion) : Except ResolutionError Dependency :=
  match selectLatest versions flag_allow_prerelease rust_version with
  | some latest => .ok ⟨latest.name, latest.version.render⟩
  | none => .error (.noAvailableVersion advisoryMsg)

/-- The filter-and-rank pipeline of `read_compatible_version`; the
caller-supplied `semver::VersionReq` enters through its `reqMatches`
denotation. -/
def selectCompatible (versions : List CrateVersion) (reqMatches : Version → Bool)
    (rust_version : Option RustVersion) : Option CrateVersion :=
  maxByVersionKey
    (((versions.filter fun v => reqMatches v.version).filter
      fun v => !v.yanked).filter (toolchainOk rust_version))

/-- Read the highest requirement-compatible version
(`read_compatible_version` in `src/fetch.rs`). -/
def read_compatible_version (versions : List CrateVersion) (reqMatches : Version → Bool)
    (rust_version : Option RustVersion) : Except ResolutionError Dependency :=
  match selectCompatible versions reqMatches rust_version with
  | some latest => .ok ⟨latest.name, latest.version.render⟩
  | none => .error (.noAvailableVersion advisoryMsg)

/-- Claim-level phrasing of the toolchain-ceiling filter: a record with
no declared minimum toolchain always passes, as does every record when
no ceiling is supplied; otherwise the declared minimum must not exceed
the ceiling. -/
def toolchainWithin (rust_version : Option RustVersion) (v : CrateVersion) : Prop :=
  match rust_version, v.rust_version with
  | none, _ => True
  | some _, none => True
  | some ceiling, some vr => vr.key ≤ ceiling.key

/-- Claim-level admissibility for latest mode: not yanked, toolchain
within the ceiling, and non-prerelease unless the flag is set. -/
def latestAdmissible (flag : Bool) (rv : Option RustVersion) (v : CrateVersion) : Prop :=
  v.yanked = false ∧ toolchainWithin rv v ∧ (v.version.isPrerelease = false ∨ flag = true)

/-- Claim-level admissibility for compatible mode: requirement
satisfied, not yanked, toolchain within the ceiling. -/
def compatAdmissible (reqMatches : Version → Bool) (rv : Option RustVersion)
    (v : CrateVersion) : Prop :=
  reqMatches v.version = true ∧ v.yanked = false ∧ toolchainWithin rv v

/-! ### Example records (the scenarios of the spec's test section) -/

/-- The `0.6.0-alpha` prerelease version of the spec's scenario. -/
def alphaVersion : Version :=
  ⟨0, 6, 0, [toLex (Sum.inr ("alpha"))]⟩

/-- Record `foo 0.6.0-alpha`, not yanked. -/
def fooAlpha : CrateVersion :=
  ⟨"foo", alphaVersion, none, false⟩

/-- Record `foo 0.5.0`, not yanked. -/
def fooStable : CrateVersion :=
  ⟨"foo", ⟨0, 5, 0, []⟩, none, false⟩

/-- Scenario list `{0.6.0-alpha (not yanked), 0.5.0 (not yanked)}`. -/
def fooList : List CrateVersion :=
  [fooAlpha, fooStable]

/-- Record `treexml 0.3.1`, yanked. -/
def yankedRec : CrateVersion :=
  ⟨"treexml", ⟨0, 3, 1, []⟩, none, true⟩

/-- Record `true 0.3.0`, not yanked. -/
def keptRec : CrateVersion :=
  ⟨"true", ⟨0, 3, 0, []⟩, none, false⟩

/-- Scenario list `{0.3.1 (yanked), 0.3.0 (not yanked)}`. -/
def yankList : List CrateVersion :=
  [yankedRec, keptRec]

/-! ### The external semver parsers (spec-modelled) and `RustVersion::from_str` -/

/-- Longest digit prefix of a char list, with the remainder. -/
def readDigits : List Char → List Char × List Char
  | [] => ([], [])
  | c :: cs =>
    if c.isDigit then
      let (d, r) := readDigits cs
      (c :: d, r)
    else ([], c :: cs)

/-- Value of a decimal digit string. -/
def digitsToNat (ds : List Char) : Nat :=
  ds.foldl (fun a c => 10 * a + (c.toNat - 48)) 0

/-- Numeric components reject leading zeros (semver grammar). -/
def noLeadingZero (ds : List Char) : Bool :=
  !(ds.head? == some '0') || ds == ['0']

/-- Splitting a char list at every occurrence of a separator. -/
def splitOnSep (sep : Char) : List Char → List (List Char)
  | [] => [[]]
  | c :: cs =>
    if c = sep then [] :: splitOnSep sep cs
    else
      match splitOnSep sep cs with
      | [] => [[c]]
      | g :: gs => (c :: g) :: gs

/-- Space trimming at both ends. -/
def trimSpaces (cs : List Char) : List Char :=
  ((cs.dropWhile fun c => c == ' ').reverse.dropWhile fun c => c == ' ').reverse

/-- Modelled from the spec: one prerelease identifier of the semver
grammar: nonempty; all-digit identifiers are numeric (no leading
zeros), otherwise only ASCII alphanumerics and hyphens are allowed. -/
def parseIdent (cs : List Char) : Option PreKey :=
  if cs.isEmpty then none
  else if cs.all (fun c => c.isDigit) then
    if noLeadingZero cs then some (toLex (Sum.inl (digitsToNat cs))) else none
  else if cs.all (fun c => c.isAlphanum || c == '-') then
    some (toLex (Sum.inr (String.mk cs)))
  else none

/-- Dot-separated prerelease identifiers. -/
def parsePre (cs : List Char) : Option (List PreKey) :=
  (splitOnSep '.' cs).mapM parseIdent

/-- Build metadata: dot-separated, nonempty, ASCII alphanumeric or
hyphen segments. -/
def validBuild (cs : List Char) : Bool :=
  (splitOnSep '.' cs).all fun seg =>
    !seg.isEmpty && seg.all (fun c => c.isAlphanum || c == '-')

/-- Split at the first `+`, separating core from build metadata. -/
def splitAtPlus : List Char → List Char × Option (List Char)
  | [] => ([], none)
  | c :: cs =>
    if c = '+' then ([], some cs)
    else
      let (a, b) := splitAtPlus cs
      (c :: a, b)

/-- Major, minor and patch, all required, with optional prerelease. -/
def parseVersionCore (cs : List Char) : Option Version :=
  let (d1, r1) := readDigits cs
  if d1.isEmpty || !noLeadingZero d1 then none else
  match r1 with
  | '.' :: r2 =>
    let (d2, r3) := readDigits r2
    if d2.isEmpty || !noLeadingZero d2 then none else
    match r3 with
    | '.' :: r4 =>
      let (d3, r5) := readDigits r4
      if d3.isEmpty || !noLeadingZero d3 then none else
      match r5 with
      | [] => some ⟨digitsToNat d1, digitsToNat d2, digitsToNat d3, []⟩
      | '-' :: r6 =>
        (parsePre r6).map fun pre => ⟨digitsToNat d1, digitsToNat d2, digitsToNat d3, pre⟩
      | _ => none
    | _ => none
  | _ => none

/-- Modelled from the spec: the external semver crate's `Version`
string parser, `major.minor.patch` with optional `-`-prefixed
prerelease identifiers and optional `+`-prefixed build metadata (build
metadata is validated, then dropped: it takes no part in anything this
engine does). -/
def parseVersion (s : String) : Option Version :=
  match splitAtPlus s.data with
  | (core, none) => parseVersionCore core
  | (core, some build) => if validBuild build then parseVersionCore core else none

/-- Operator of a requirement comparator (`semver::Op`). -/
inductive ReqOp where
  | exact
  | greater
  | greaterEq
  | less
  | lessEq
  | tilde
  | caret
  | wildcard
deriving DecidableEq

/-- One requirement comparator (`semver::Comparator`): operator, major,
optional minor and patch, prerelease. -/
structure Comparator where
  op : ReqOp
  major : Nat
  minor : Option Nat
  patch : Option Nat
  pre : List PreKey
deriving DecidableEq

/-- Leading explicit operator of a comparator, if any. -/
def parseOp : List Char → Option ReqOp × List Char
  | '=' :: r => (some .exact, r)
  | '>' :: '=' :: r => (some .greaterEq, r)
  | '>' :: r => (some .greater, r)
  | '<' :: '=' :: r => (some .lessEq, r)
  | '<' :: r => (some .less, r)
  | '~' :: r => (some .tilde, r)
  | '^' :: r => (some .caret, r)
  | r => (none, r)

/-- Modelled from the spec: one comparator of the semver requirement
grammar: an optional operator (a bare version defaults to caret)
followed by `major`, optionally `.minor`, optionally `.patch` and a
prerelease; a final `*` segment in the minor or patch position of a
bare comparator makes it a wildcard comparator. -/
def parseComparator (cs : List Char) : Option Comparator :=
  let (opex, r1) := parseOp (trimSpaces cs)
  let (d1, r2) := readDigits r1
  if d1.isEmpty || !noLeadingZero d1 then none else
  let major := digitsToNat d1
  let op := opex.getD .caret
  match r2 with
  | [] => some ⟨op, major, none, none, []⟩
  | '.' :: r3 =>
    if r3 = ['*'] then
      if opex.isNone then some ⟨.wildcard, major, none, none, []⟩ else none
    else
    let (d2, r4) := readDigits r3
    if d2.isEmpty || !noLeadingZero d2 then none else
    let minor := digitsToNat d2
    match r4 with
    | [] => some ⟨op, major, some minor, none, []⟩
    | '.' :: r5 =>
      if r5 = ['*'] then
        if opex.isNone then some ⟨.wildcard, major, some minor, none, []⟩ else none
      else
      let (d3, r6) := readDigits r5
      if d3.isEmpty || !noLeadingZero d3 then none else
      let patch := digitsToNat d3
      match r6 with
      | [] => some ⟨op, major, some minor, some patch, []⟩
      | '-' :: r7 => (parsePre r7).map fun pre => ⟨op, major, some minor, some patch, pre⟩
      | _ => none
    | _ => none
  | _ => none

/-- Modelled from the spec: the external semver crate's `VersionReq`
string parser, restricted to the forms this engine relies on:
comma-separated comparators; the bare requirement `*` parses to the
empty comparator list. -/
def parseVersionReq (s : String) : Option (List Comparator) :=
  let t := trimSpaces s.data
  if t = ['*'] then some []
  else (splitOnSep ',' t).mapM parseComparator

/-- The checks of `RustVersion::from_str` after requirement parsing:
exactly one comparator, caret operator, empty prerelease; minor and
patch default to 0 when omitted. -/
def rustVersionOfReq (comparators : List Comparator) : Option RustVersion :=
  match comparators with
  | [comp] =>
    if comp.op = ReqOp.caret then
      if comp.pre.isEmpty then
        some ⟨comp.major, comp.minor.getD 0, comp.patch.getD 0⟩
      else none
    else none
  | _ => none

/-- The full `RustVersion::from_str` (`src/fetch.rs`): parse the text as a
version requirement, then require a single caret comparator without
prerelease. -/
def rustVersionFromStr (text : String) : Option RustVersion :=
  (parseVersionReq text).bind rustVersionOfReq

/-! ### Fuzzy crate-name generation (`gen_fuzzy_crate_names`) -/

/-- The dash/underscore byte pattern (`PATTERN` in `src/fetch.rs`). -/
def PATTERN : List Char :=
  ['-', '_']

/-- Every byte position holding a dash or underscore, in increasing
order: the enumerate-filter-map chain of `gen_fuzzy_crate_names`
before the cap. -/
def sepIndexesAll (crate_name : List Char) : List Nat :=
  (crate_name.enum.filter fun p => PATTERN.contains p.2).map Prod.fst

/-- The `wildcard_indexs` list: the positions of the first at most 10
dash/underscore bytes (`take(10)` closes the chain). -/
def wildcardIndexs (crate_name : List Char) : List Nat :=
  (sepIndexesAll crate_name).take 10

/-- The inner loop of `gen_fuzzy_crate_names` for one mask: bit
`mi + j` of `mask` rewrites the `j`-th listed position to a dash (bit
set) or an underscore (bit clear). -/
def applyMask (bytes : List Char) (idxs : List Nat) (mask mi : Nat) : List Char :=
  match idxs with
  | [] => bytes
  | wi :: rest =>
    applyMask (bytes.set wi (if (mask >>> mi) &&& 1 = 1 then '-' else '_')) rest mask (mi + 1)

/-- Generate all similar crate names (`gen_fuzzy_crate_names` in
`src/fetch.rs`).  The Rust loop reuses one byte buffer across masks;
that is equivalent to rewriting the pristine input for each mask, since
every varied position is written on every iteration. -/
def gen_fuzzy_crate_names (crate_name : List Char) : List (List Char) :=
  if (wildcardIndexs crate_name).isEmpty then [crate_name]
  else
    (List.range (2 ^ (wildcardIndexs crate_name).length)).map fun mask =>
      applyMask crate_name (wildcardIndexs crate_name) mask 0

/-- Flip the dash/underscore choice at one position. -/
def flipAt (s : List Char) (i : Nat) : List Char :=
  if s[i]? = some '-' then s.set i '_'
  else if s[i]? = some '_' then s.set i '-'
  else s

/-- The mask that reproduces the input: bit `j` is set exactly when the
`j`-th listed position of the input holds a dash. -/
def identMask (name : List Char) : List Nat → Nat
  | [] => 0
  | wi :: rest => (if name[wi]? = some '-' then 1 else 0) + 2 * identMask name rest

/-- Swap of two positions (`Vec::swap`; the call sites only ever use
in-range indices, where the two writes below are exactly the swap). -/
def listSwap {α : Type} (l : List α) (i j : Nat) : List α :=
  if h : i < l.length ∧ j < l.length then
    (l.set i (l.get ⟨j, h.2⟩)).set j (l.get ⟨i, h.1⟩)
  else l

/-- The ordered variant list of `fuzzy_query_registry_index`: generate
the variants, then swap the literal requested name (when found) to
position 0. -/
def orderedNames (crate_name : List Char) : List (List Char) :=
  let names := gen_fuzzy_crate_names crate_name
  match names.findIdx? fun x => x == crate_name with
  | some index => listSwap names index 0
  | none => names

/-- Conclusion of C3: with `k ≤ 10` separators the generator yields
exactly `2 ^ k` distinct variants, each equal to the input away from
separator positions and dash/underscore at them, the set is closed
under single flips, and a separator-free name yields the singleton. -/
def genSound (name : List Char) : Prop :=
  (gen_fuzzy_crate_names name).length = 2 ^ (sepIndexesAll name).length ∧
  (gen_fuzzy_crate_names name).Nodup ∧
  (∀ s ∈ gen_fuzzy_crate_names name,
    s.length = name.length ∧
    (∀ j, j ∉ sepIndexesAll name → s[j]? = name[j]?) ∧
    (∀ i ∈ sepIndexesAll name, s[i]? = some '-' ∨ s[i]? = some '_')) ∧
  (∀ s ∈ gen_fuzzy_crate_names name, ∀ i ∈ sepIndexesAll name,
    flipAt s i ∈ gen_fuzzy_crate_names name) ∧
  (sepIndexesAll name = [] → gen_fuzzy_crate_names name = [name])

/-- Conclusion of C4: with more than 10 separator bytes only the first
10 positions vary — the output has exactly `2 ^ 10 = 1024` variants and
every position outside the capped list, in particular every separator
from the eleventh on, keeps its original character. -/
def capSound (name : List Char) : Prop :=
  (gen_fuzzy_crate_names name).length = 1024 ∧
  ∀ s ∈ gen_fuzzy_crate_names name,
    s.length = name.length ∧
    (∀ j, j ∉ wildcardIndexs name → s[j]? = name[j]?) ∧
    (∀ j ∈ (sepIndexesAll name).drop 10, s[j]? = name[j]?)

/-! ### Registry-index lookup (`fuzzy_query_registry_index`) -/

/-- One raw version record as the index hands it over
(`PackageEntry.versions` of the collaborator contract): strings still
to be parsed. -/
structure RawRecord where
  name : String
  version : String
  rust_version : Option String
  yanked : Bool
deriving DecidableEq

/-- Outcome of one `index.krate(name)` call as the loop observes it:
an index error, no such package, or a present package with its
records. -/
inductive IndexResult where
  | err
  | notFound
  | found (records : List RawRecord)
deriving DecidableEq

/-- Whether the call resolved to a present package. -/
def IndexResult.isFound : IndexResult → Bool
  | .found _ => true
  | _ => false

/-- The `v.rust_version.as_ref().map(|r| r.parse()).transpose()` step:
an absent string stays absent, a present one must parse. -/
def convertRustVersion (o : Option String) : Except ResolutionError (Option RustVersion) :=
  match o with
  | none => .ok none
  | some s =>
    match rustVersionFromStr s with
    | some rv => .ok (some rv)
    | none => .error (.invalidToolchainSpec s)

/-- Conversion of one raw record, as in the `collect` closure of
`fuzzy_query_registry_index`: parse the version string, then the
optional `rust-version` string, failing on the first parse error (the
nested matches are the two `?` operators). -/
def convertRecord (r : RawRecord) : Except ResolutionError CrateVersion :=
  match parseVersion r.version with
  | none => .error (.invalidVersionSpec r.version)
  | some v =>
    match convertRustVersion r.rust_version with
    | .error e => .error e
    | .ok rust_version => .ok ⟨r.name, v, rust_version, r.yanked⟩

/-- The `iter().map(..).collect::<Result<_>>()` over a present
package's records: left to right, stopping at the first error. -/
def convertVersions (rs : List RawRecord) : Except ResolutionError (List CrateVersion) :=
  rs.mapM convertRecord

/-- The `for the_name in names` loop: the first name the index resolves
to a present package settles the call with that package's converted
records; errors and absent packages advance to the next name. -/
def lookupLoop (index : List Char → IndexResult) :
    List (List Char) → Option (Except ResolutionError (List CrateVersion))
  | [] => none
  | n :: rest =>
    match index n with
    | .found rs => some (convertVersions rs)
    | _ => lookupLoop index rest

/-- Fuzzy query crate from registry index
(`fuzzy_query_registry_index` in `src/fetch.rs`): run the loop over the
ordered variants; if no variant resolves, fail with the
crate-not-found error carrying the originally requested name. -/
def fuzzy_query_registry_index (index : List Char → IndexResult) (crate_name : List Char) :
    Except ResolutionError (List CrateVersion) :=
  match lookupLoop index (orderedNames crate_name) with
  | some r => r
  | none => .error (.crateNotFound (String.mk crate_name))

/-- Sample raw record for the lookup witnesses. -/
def sampleRecord : RawRecord :=
  ⟨"a_b", "1.0.0", none, false⟩

/-- Sample index: the literal name errors, its underscore variant is
present, everything else is absent. -/
def idxSample : List Char → IndexResult
  | ['a', '-', 'b'] => .err
  | ['a', '_', 'b'] => .found [sampleRecord]
  | _ => .notFound

/-- Sample index that always errors. -/
def idxAbsent : List Char → IndexResult :=
  fun _ => .err

/-- Raw record with an unparsable version string. -/
def badRecord : RawRecord :=
  ⟨"a_b", "oops", none, false⟩

/-- Sample index whose present variant holds the unparsable record. -/
def idxBad : List Char → IndexResult
  | ['a', '-', 'b'] => .err
  | ['a', '_', 'b'] => .found [badRecord]
  | _ => .notFound

/-! ### Theorems -/

/-- Folding `maxStep` from a `some` accumulator yields a maximum: the
result is the accumulator or a list element, dominates the accumulator,
and dominates every list element. -/
theorem foldl_maxStep_spec (l : List CrateVersion) :
    ∀ a : CrateVersion, ∃ m, l.foldl maxStep (some a) = some m ∧
      (m = a ∨ m ∈ l) ∧ a.version.key ≤ m.version.key ∧
      ∀ v ∈ l, v.version.key ≤ m.version.key := by
  induction l with
  | nil => exact fun a => ⟨a, rfl, Or.inl rfl, le_refl _, by simp⟩
  | cons v l ih =>
    intro a
    by_cases hav : a.version.key ≤ v.version.key
    · obtain ⟨m, hm, hmem, hdom, hall⟩ := ih v
      refine ⟨m, ?_, ?_, le_trans hav hdom, ?_⟩
      · simpa [List.foldl_cons, maxStep, if_pos hav] using hm
      · rcases hmem with h | h
        · exact Or.inr (h ▸ List.mem_cons_self v l)
        · exact Or.inr (List.mem_cons_of_mem _ h)
      · intro w hw
        rcases List.mem_cons.mp hw with rfl | hw
        · exact hdom
        · exact hall w hw
    · obtain ⟨m, hm, hmem, hdom, hall⟩ := ih a
      refine ⟨m, ?_, ?_, hdom, ?_⟩
      · simpa [List.foldl_cons, maxStep, if_neg hav] using hm
      · rcases hmem with h | h
        · exact Or.inl h
        · exact Or.inr (List.mem_cons_of_mem _ h)
      · intro w hw
        rcases List.mem_cons.mp hw with rfl | hw
        · exact le_trans (le_of_not_le hav) hdom
        · exact hall w hw

/-- The maximum exists exactly when the list is nonempty. -/
theorem maxByVersionKey_eq_none_iff (l : List CrateVersion) :
    maxByVersionKey l = none ↔ l = [] := by
  cases l with
  | nil => simp [maxByVersionKey]
  | cons v l =>
    obtain ⟨m, hm, -, -, -⟩ := foldl_maxStep_spec l v
    simp [maxByVersionKey, List.foldl_cons, maxStep, hm]

/-- The maximum is an element of the list and dominates every element
under the semver precedence key. -/
theorem maxByVersionKey_spec (l : List CrateVersion) (m : CrateVersion)
    (h : maxByVersionKey l = some m) :
    m ∈ l ∧ ∀ v ∈ l, v.version.key ≤ m.version.key := by
  cases l with
  | nil => simp [maxByVersionKey] at h
  | cons v l =>
    obtain ⟨m', hm', hmem, hdom, hall⟩ := foldl_maxStep_spec l v
    rw [maxByVersionKey, List.foldl_cons] at h
    rw [show maxStep none v = some v from rfl, hm'] at h
    obtain rfl : m' = m := by injection h
    refine ⟨?_, ?_⟩
    · rcases hmem with rfl | h
      · exact List.mem_cons_self _ _
      · exact List.mem_cons_of_mem _ h
    · intro w hw
      rcases List.mem_cons.mp hw with rfl | hw
      · exact hdom
      · exact hall w hw

/-- The code's toolchain filter coincides with the claim-level one. -/
theorem toolchainOk_iff (rv : Option RustVersion) (v : CrateVersion) :
    toolchainOk rv v = true ↔ toolchainWithin rv v := by
  cases rv with
  | none => simp [toolchainOk, toolchainWithin]
  | some ceiling =>
    cases hv : v.rust_version with
    | none => simp [toolchainOk, toolchainWithin, hv]
    | some vr => simp [toolchainOk, toolchainWithin, hv]

/-- Membership in the latest-mode filter pipeline. -/
theorem mem_latest_filtered (versions : List CrateVersion) (flag : Bool)
    (rv : Option RustVersion) (v : CrateVersion) :
    v ∈ (((versions.filter fun v => flag || version_is_stable v).filter
        fun v => !v.yanked).filter (toolchainOk rv)) ↔
      v ∈ versions ∧ latestAdmissible flag rv v := by
  simp only [List.mem_filter, latestAdmissible, ← toolchainOk_iff, version_is_stable,
    Bool.or_eq_true, Bool.not_eq_true']
  tauto

/-- Membership in the compatible-mode filter pipeline. -/
theorem mem_compat_filtered (versions : List CrateVersion) (reqMatches : Version → Bool)
    (rv : Option RustVersion) (v : CrateVersion) :
    v ∈ (((versions.filter fun v => reqMatches v.version).filter
        fun v => !v.yanked).filter (toolchainOk rv)) ↔
      v ∈ versions ∧ compatAdmissible reqMatches rv v := by
  simp only [List.mem_filter, compatAdmissible, ← toolchainOk_iff, Bool.not_eq_true']
  tauto

/-- C1: in latest mode the selected record is the maximum by
semantic-version precedence among exactly those records that are not
yanked, whose declared minimum toolchain (if any) does not exceed the
supplied ceiling (no declared minimum, or no ceiling, always passes),
and that are non-prerelease unless the allow-prerelease flag is set. -/
theorem read_latest_selects_maximum (versions : List CrateVersion) (flag : Bool)
    (rv : Option RustVersion) (sel : CrateVersion)
    (h : selectLatest versions flag rv = some sel) :
    sel ∈ versions ∧ latestAdmissible flag rv sel ∧
      (∀ v ∈ versions, latestAdmissible flag rv v → v.version.key ≤ sel.version.key) ∧
      read_latest_version versions flag rv = .ok ⟨sel.name, sel.version.render⟩ := by
  obtain ⟨hmem, hdom⟩ := maxByVersionKey_spec _ _ h
  rw [mem_latest_filtered] at hmem
  refine ⟨hmem.1, hmem.2, ?_, ?_⟩
  · intro v hv hadm
    exact hdom v ((mem_latest_filtered versions flag rv v).mpr ⟨hv, hadm⟩)
  · rw [read_latest_version, h]

/-- Witness for C1 at the spec's two-record scenario. -/
theorem read_latest_selects_maximum_witness :
    selectLatest fooList false none = some fooStable ∧
      (fooStable ∈ fooList ∧ latestAdmissible false none fooStable ∧
        (∀ v ∈ fooList, latestAdmissible false none v →
          v.version.key ≤ fooStable.version.key) ∧
        read_latest_version fooList false none = .ok ⟨fooStable.name, fooStable.version.render⟩) :=
  ⟨by decide, read_latest_selects_maximum fooList false none fooStable (by decide)⟩

/-- C2: in compatible mode the selected record is the maximum by
semantic-version precedence among exactly those records that satisfy
the requirement, are not yanked, and whose declared minimum toolchain
(if any) does not exceed the supplied ceiling. -/
theorem read_compatible_selects_maximum (versions : List CrateVersion)
    (reqMatches : Version → Bool) (rv : Option RustVersion) (sel : CrateVersion)
    (h : selectCompatible versions reqMatches rv = some sel) :
    sel ∈ versions ∧ compatAdmissible reqMatches rv sel ∧
      (∀ v ∈ versions, compatAdmissible reqMatches rv v → v.version.key ≤ sel.version.key) ∧
      read_compatible_version versions reqMatches rv = .ok ⟨sel.name, sel.version.render⟩ := by
  obtain ⟨hmem, hdom⟩ := maxByVersionKey_spec _ _ h
  rw [mem_compat_filtered] at hmem
  refine ⟨hmem.1, hmem.2, ?_, ?_⟩
  · intro v hv hadm
    exact hdom v ((mem_compat_filtered versions reqMatches rv v).mpr ⟨hv, hadm⟩)
  · rw [read_compatible_version, h]

/-- Witness for C2: requirement `major = 0 and minor ≤ 5` over the
scenario list selects `0.5.0`. -/
theorem read_compatible_selects_maximum_witness :
    selectCompatible fooList (fun v => decide (v.major = 0 ∧ v.minor ≤ 5)) none = some fooStable ∧
      (fooStable ∈ fooList ∧
        compatAdmissible (fun v => decide (v.major = 0 ∧ v.minor ≤ 5)) none fooStable ∧
        (∀ v ∈ fooList, compatAdmissible (fun v => decide (v.major = 0 ∧ v.minor ≤ 5)) none v →
          v.version.key ≤ fooStable.version.key) ∧
        read_compatible_version fooList (fun v => decide (v.major = 0 ∧ v.minor ≤ 5)) none =
          .ok ⟨fooStable.name, fooStable.version.render⟩) :=
  ⟨by decide,
    read_compatible_selects_maximum fooList (fun v => decide (v.major = 0 ∧ v.minor ≤ 5)) none
      fooStable (by decide)⟩

/-- C8: whenever the filter pipeline leaves no candidate — in
particular whenever every record is yanked — both selectors fail with
`NoAvailableVersion` carrying the advisory message that either all
versions were yanked or only prereleases remain, suggesting the
allow-prerelease flag. -/
theorem empty_filter_no_available_version (versions : List CrateVersion) (flag : Bool)
    (reqMatches : Version → Bool) (rv : Option RustVersion)
    (hyank : ∀ v ∈ versions, v.yanked = true) :
    (∀ vs fl r, selectLatest vs fl r = none →
      read_latest_version vs fl r = .error (.noAvailableVersion advisoryMsg)) ∧
    (∀ vs rq r, selectCompatible vs rq r = none →
      read_compatible_version vs rq r = .error (.noAvailableVersion advisoryMsg)) ∧
    selectLatest versions flag rv = none ∧
    selectCompatible versions reqMatches rv = none ∧
    read_latest_version versions flag rv = .error (.noAvailableVersion advisoryMsg) ∧
    read_compatible_version versions reqMatches rv = .error (.noAvailableVersion advisoryMsg) := by
  have gen1 : ∀ vs fl r, selectLatest vs fl r = none →
      read_latest_version vs fl r = .error (.noAvailableVersion advisoryMsg) := by
    intro vs fl r hnone
    rw [read_latest_version, hnone]
  have gen2 : ∀ vs rq r, selectCompatible vs rq r = none →
      read_compatible_version vs rq r = .error (.noAvailableVersion advisoryMsg) := by
    intro vs rq r hnone
    rw [read_compatible_version, hnone]
  have h1 : selectLatest versions flag rv = none := by
    rw [selectLatest, maxByVersionKey_eq_none_iff, List.eq_nil_iff_forall_not_mem]
    intro v hv
    have := (mem_latest_filtered versions flag rv v).mp hv
    exact absurd (hyank v this.1) (by simp [this.2.1])
  have h2 : selectCompatible versions reqMatches rv = none := by
    rw [selectCompatible, maxByVersionKey_eq_none_iff, List.eq_nil_iff_forall_not_mem]
    intro v hv
    have := (mem_compat_filtered versions reqMatches rv v).mp hv
    exact absurd (hyank v this.1) (by simp [this.2.2.1])
  exact ⟨gen1, gen2, h1, h2, gen1 _ _ _ h1, gen2 _ _ _ h2⟩

/-- Witness for C8 at an all-yanked record list. -/
theorem empty_filter_no_available_version_witness :
    (∀ v ∈ [yankedRec], v.yanked = true) ∧
      ((∀ vs fl r, selectLatest vs fl r = none →
        read_latest_version vs fl r = .error (.noAvailableVersion advisoryMsg)) ∧
      (∀ vs rq r, selectCompatible vs rq r = none →
        read_compatible_version vs rq r = .error (.noAvailableVersion advisoryMsg)) ∧
      selectLatest [yankedRec] false none = none ∧
      selectCompatible [yankedRec] (fun _ => true) none = none ∧
      read_latest_version [yankedRec] false none = .error (.noAvailableVersion advisoryMsg) ∧
      read_compatible_version [yankedRec] (fun _ => true) none =
        .error (.noAvailableVersion advisoryMsg)) :=
  ⟨by decide,
    empty_filter_no_available_version [yankedRec] false (fun _ => true) none (by decide)⟩

/-- C9: with the prerelease flag off, latest mode never selects a
prerelease when a non-prerelease, non-yanked, toolchain-compatible
record exists (indeed, whatever it selects is a non-prerelease); the
spec's concrete scenarios resolve as stated, and yanked records lose
even when numerically higher, regardless of the flag. -/
theorem latest_prerelease_policy :
    (∀ (versions : List CrateVersion) (rv : Option RustVersion),
      (∃ v ∈ versions, v.yanked = false ∧ toolchainWithin rv v ∧ v.version.isPrerelease = false) →
      ∃ sel, selectLatest versions false rv = some sel ∧ sel.version.isPrerelease = false) ∧
    read_latest_version fooList false none = .ok ⟨"foo", "0.5.0"⟩ ∧
    read_latest_version fooList true none = .ok ⟨"foo", "0.6.0-alpha"⟩ ∧
    (∀ flag : Bool, read_latest_version yankList flag none = .ok ⟨"true", "0.3.0"⟩) := by
  refine ⟨?_, by decide, by decide, by decide⟩
  intro versions rv ⟨v, hv, hyank, htool, hpre⟩
  have hvmem : v ∈ (((versions.filter fun v => false || version_is_stable v).filter
      fun v => !v.yanked).filter (toolchainOk rv)) :=
    (mem_latest_filtered versions false rv v).mpr ⟨hv, hyank, htool, Or.inl hpre⟩
  obtain ⟨sel, hsel⟩ : ∃ sel, selectLatest versions false rv = some sel := by
    rcases hopt : selectLatest versions false rv with - | sel
    · rw [selectLatest, maxByVersionKey_eq_none_iff] at hopt
      rw [hopt] at hvmem
      cases hvmem
    · exact ⟨sel, rfl⟩
  obtain ⟨hmem, -⟩ := maxByVersionKey_spec _ _ hsel
  have := (mem_latest_filtered versions false rv sel).mp hmem
  rcases this.2.2.2 with h | h
  · exact ⟨sel, hsel, h⟩
  · cases h

/-- Witness for C9's universal part at the two-record scenario. -/
theorem latest_prerelease_policy_witness :
    (∃ v ∈ fooList, v.yanked = false ∧ toolchainWithin none v ∧ v.version.isPrerelease = false) ∧
      (∃ sel, selectLatest fooList false none = some sel ∧ sel.version.isPrerelease = false) :=
  ⟨⟨fooStable, by decide, by decide, trivial, by decide⟩,
    latest_prerelease_policy.1 fooList none ⟨fooStable, by decide, by decide, trivial, by decide⟩⟩

/-- C7: minimum-toolchain parsing maps `1.32` to `{1,32,0}` (omitted
minor and patch default to 0) and succeeds only on inputs that parse to
a single caret comparator without a prerelease component; in particular
`1.32.0-beta`, `>=1.32` and `1.*` all fail. -/
theorem rust_version_parse_spec :
    rustVersionFromStr ("1.32") = some ⟨1, 32, 0⟩ ∧
    (∀ req : List Comparator, (rustVersionOfReq req).isSome ↔
      ∃ c, req = [c] ∧ c.op = ReqOp.caret ∧ c.pre = []) ∧
    (∀ (s : String) (rv : RustVersion), rustVersionFromStr s = some rv →
      ∃ c, parseVersionReq s = some [c] ∧ c.op = ReqOp.caret ∧ c.pre = [] ∧
        rv = ⟨c.major, c.minor.getD 0, c.patch.getD 0⟩) ∧
    rustVersionFromStr ("1.32.0-beta") = none ∧
    rustVersionFromStr (">=1.32") = none ∧
    rustVersionFromStr ("1.*") = none := by
  have key : ∀ req rv, rustVersionOfReq req = some rv →
      ∃ c, req = [c] ∧ c.op = ReqOp.caret ∧ c.pre = [] ∧
        rv = ⟨c.major, c.minor.getD 0, c.patch.getD 0⟩ := by
    intro req rv h
    match req with
    | [] => exact absurd h (by simp [rustVersionOfReq])
    | c₁ :: c₂ :: rest => exact absurd h (by simp [rustVersionOfReq])
    | [c] =>
      rw [rustVersionOfReq] at h
      split_ifs at h with hop hpre
      · exact ⟨c, rfl, hop, List.isEmpty_iff.mp hpre, (Option.some.inj h).symm⟩
  refine ⟨by decide, ?_, ?_, by decide, by decide, by decide⟩
  · intro req
    constructor
    · intro h
      obtain ⟨rv, hrv⟩ := Option.isSome_iff_exists.mp h
      obtain ⟨c, hc, hop, hpre, -⟩ := key req rv hrv
      exact ⟨c, hc, hop, hpre⟩
    · rintro ⟨c, rfl, hop, hpre⟩
      simp [rustVersionOfReq, hop, hpre]
  · intro s rv h
    rw [rustVersionFromStr] at h
    rcases hp : parseVersionReq s with - | req
    · rw [hp] at h
      cases h
    · rw [hp, Option.some_bind] at h
      obtain ⟨c, rfl, hop, hpre, hrv⟩ := key req rv h
      exact ⟨c, rfl, hop, hpre, hrv⟩

/-- Witness for C7 at the spec's positive example. -/
theorem rust_version_parse_spec_witness :
    rustVersionFromStr ("1.32") = some ⟨1, 32, 0⟩ ∧
      ∃ c, parseVersionReq ("1.32") = some [c] ∧ c.op = ReqOp.caret ∧ c.pre = [] ∧
        (⟨1, 32, 0⟩ : RustVersion) = ⟨c.major, c.minor.getD 0, c.patch.getD 0⟩ :=
  ⟨by decide, rust_version_parse_spec.2.2.1 ("1.32") ⟨1, 32, 0⟩ (by decide)⟩

/-- The bit test of the inner loop, `(mask >> i) & 1 == 1`, is
`Nat.testBit`. -/
theorem shift_and_one_iff (mask j : Nat) :
    ((mask >>> j) &&& 1 = 1) ↔ mask.testBit j = true := by
  rw [Nat.and_one_is_mod, Nat.shiftRight_eq_div_pow, Nat.testBit_to_div_mod]
  simp

/-- Applying a mask never changes the length. -/
theorem applyMask_length (idxs : List Nat) :
    ∀ (bytes : List Char) (mask mi : Nat),
      (applyMask bytes idxs mask mi).length = bytes.length := by
  induction idxs with
  | nil => intro bytes mask mi; rfl
  | cons wi rest ih =>
    intro bytes mask mi
    rw [show applyMask bytes (wi :: rest) mask mi =
      applyMask (bytes.set wi (if (mask >>> mi) &&& 1 = 1 then '-' else '_')) rest mask (mi + 1)
      from rfl]
    rw [ih, List.length_set]

/-- Positions not listed in `idxs` are untouched. -/
theorem applyMask_getElem?_not_mem (idxs : List Nat) :
    ∀ (bytes : List Char) (mask mi j : Nat), j ∉ idxs →
      (applyMask bytes idxs mask mi)[j]? = bytes[j]? := by
  induction idxs with
  | nil => intro bytes mask mi j _; rfl
  | cons wi rest ih =>
    intro bytes mask mi j h
    have hne : wi ≠ j := fun he => h (he ▸ List.mem_cons_self wi rest)
    rw [show applyMask bytes (wi :: rest) mask mi =
      applyMask (bytes.set wi (if (mask >>> mi) &&& 1 = 1 then '-' else '_')) rest mask (mi + 1)
      from rfl]
    rw [ih _ _ _ _ fun hm => h (List.mem_cons_of_mem _ hm), List.getElem?_set_ne hne]

/-- The character written at the `n`-th listed position is determined
by bit `mi + n` of the mask (for strictly increasing position lists). -/
theorem applyMask_getElem?_at (idxs : List Nat) :
    ∀ (_ : idxs.Pairwise (· < ·)) (bytes : List Char) (mask mi n : Nat)
      (hn : n < idxs.length), idxs[n] < bytes.length →
      (applyMask bytes idxs mask mi)[idxs[n]]? =
        some (if mask.testBit (mi + n) then '-' else '_') := by
  induction idxs with
  | nil => intro _ bytes mask mi n hn; exact absurd hn (by simp)
  | cons wi rest ih =>
    intro hp bytes mask mi n hn hlt
    obtain ⟨hhead, htail⟩ := List.pairwise_cons.mp hp
    cases n with
    | zero =>
      have hwi : wi ∉ rest := fun hm => absurd (hhead wi hm) (lt_irrefl wi)
      rw [show applyMask bytes (wi :: rest) mask mi =
        applyMask (bytes.set wi (if (mask >>> mi) &&& 1 = 1 then '-' else '_')) rest mask (mi + 1)
        from rfl]
      rw [List.getElem_cons_zero] at hlt ⊢
      rw [applyMask_getElem?_not_mem rest _ mask (mi + 1) wi hwi,
        List.getElem?_set_self hlt, Nat.add_zero]
      by_cases hb : mask.testBit mi
      · rw [if_pos hb, if_pos ((shift_and_one_iff mask mi).mpr hb)]
      · rw [if_neg hb, if_neg fun hc => hb ((shift_and_one_iff mask mi).mp hc)]
    | succ n =>
      rw [show applyMask bytes (wi :: rest) mask mi =
        applyMask (bytes.set wi (if (mask >>> mi) &&& 1 = 1 then '-' else '_')) rest mask (mi + 1)
        from rfl]
      rw [List.getElem_cons_succ] at hlt ⊢
      have harith : mi + 1 + n = mi + (n + 1) := by omega
      rw [ih htail _ mask (mi + 1) n (by simpa using hn)
        (by rw [List.length_set]; exact hlt), harith]

/-- Distinct masks below `2 ^ k` produce distinct rewrites. -/
theorem applyMask_inj (idxs : List Nat) (hp : idxs.Pairwise (· < ·)) (bytes : List Char)
    (hlen : ∀ i ∈ idxs, i < bytes.length) (m₁ m₂ : Nat)
    (h1 : m₁ < 2 ^ idxs.length) (h2 : m₂ < 2 ^ idxs.length)
    (heq : applyMask bytes idxs m₁ 0 = applyMask bytes idxs m₂ 0) : m₁ = m₂ := by
  apply Nat.eq_of_testBit_eq
  intro i
  by_cases hi : i < idxs.length
  · have e1 := applyMask_getElem?_at idxs hp bytes m₁ 0 i hi (hlen _ (List.getElem_mem hi))
    have e2 := applyMask_getElem?_at idxs hp bytes m₂ 0 i hi (hlen _ (List.getElem_mem hi))
    rw [heq, e2] at e1
    rw [Nat.zero_add] at e1
    by_cases c1 : m₁.testBit i <;> by_cases c2 : m₂.testBit i
    · rw [c1, c2]
    · rw [if_neg c2, if_pos c1] at e1
      exact absurd e1 (by decide)
    · rw [if_pos c2, if_neg c1] at e1
      exact absurd e1 (by decide)
    · rw [eq_false_of_ne_true c1, eq_false_of_ne_true c2]
  · have hle : 2 ^ idxs.length ≤ 2 ^ i := Nat.pow_le_pow_right (by omega) (le_of_not_lt hi)
    rw [Nat.testBit_lt_two_pow (lt_of_lt_of_le h1 hle),
      Nat.testBit_lt_two_pow (lt_of_lt_of_le h2 hle)]

/-- Characterisation of the separator positions. -/
theorem mem_sepIndexesAll (name : List Char) (i : Nat) :
    i ∈ sepIndexesAll name ↔ name[i]? = some '-' ∨ name[i]? = some '_' := by
  rw [sepIndexesAll]
  constructor
  · intro h
    rw [List.mem_map] at h
    obtain ⟨⟨a, c⟩, hmem, rfl⟩ := h
    rw [List.mem_filter] at hmem
    obtain ⟨henum, hpat⟩ := hmem
    have hget := List.mem_enum_iff_getElem?.mp henum
    have hc : c = '-' ∨ c = '_' := by simpa [PATTERN] using hpat
    rcases hc with rfl | rfl
    · exact Or.inl hget
    · exact Or.inr hget
  · intro h
    rw [List.mem_map]
    rcases h with h | h
    · exact ⟨(i, '-'), List.mem_filter.mpr ⟨List.mem_enum_iff_getElem?.mpr h, rfl⟩, rfl⟩
    · exact ⟨(i, '_'), List.mem_filter.mpr ⟨List.mem_enum_iff_getElem?.mpr h, rfl⟩, rfl⟩

/-- The separator positions are listed in strictly increasing order. -/
theorem sepIndexesAll_pairwise (name : List Char) :
    (sepIndexesAll name).Pairwise (· < ·) := by
  have hsub : (sepIndexesAll name).Sublist (name.enum.map Prod.fst) :=
    List.Sublist.map Prod.fst (List.filter_sublist _)
  rw [List.enum_map_fst] at hsub
  exact List.Pairwise.sublist hsub (List.pairwise_lt_range _)

/-- The capped position list sits inside the full one. -/
theorem wildcardIndexs_sublist (name : List Char) :
    (wildcardIndexs name).Sublist (sepIndexesAll name) :=
  List.take_sublist 10 _

/-- The capped position list is strictly increasing too. -/
theorem wildcardIndexs_pairwise (name : List Char) :
    (wildcardIndexs name).Pairwise (· < ·) :=
  List.Pairwise.sublist (wildcardIndexs_sublist name) (sepIndexesAll_pairwise name)

/-- Separator positions are in range. -/
theorem mem_sep_lt_length (name : List Char) (i : Nat) (h : i ∈ sepIndexesAll name) :
    i < name.length := by
  rcases (mem_sepIndexesAll name i).mp h with h' | h' <;>
    exact (List.getElem?_eq_some.mp h').1

/-- Capped positions are in range. -/
theorem mem_wildcard_lt_length (name : List Char) (i : Nat) (h : i ∈ wildcardIndexs name) :
    i < name.length :=
  mem_sep_lt_length name i (List.Sublist.mem h (wildcardIndexs_sublist name))

/-- The identity mask stays below `2 ^ k`. -/
theorem identMask_lt (name : List Char) (idxs : List Nat) :
    identMask name idxs < 2 ^ idxs.length := by
  induction idxs with
  | nil => simp [identMask]
  | cons wi rest ih =>
    rw [show identMask name (wi :: rest) =
      (if name[wi]? = some '-' then 1 else 0) + 2 * identMask name rest from rfl]
    rw [List.length_cons, pow_succ]
    split <;> omega

/-- Bit `n` of the identity mask reads off whether the `n`-th listed
position of the input holds a dash. -/
theorem identMask_testBit (name : List Char) (idxs : List Nat) :
    ∀ (n : Nat) (hn : n < idxs.length),
      (identMask name idxs).testBit n = decide (name[idxs[n]]? = some '-') := by
  induction idxs with
  | nil => intro n hn; exact absurd hn (by simp)
  | cons wi rest ih =>
    intro n hn
    rw [show identMask name (wi :: rest) =
      (if name[wi]? = some '-' then 1 else 0) + 2 * identMask name rest from rfl]
    cases n with
    | zero =>
      rw [List.getElem_cons_zero, Nat.testBit_zero]
      by_cases hb : name[wi]? = some '-'
      · rw [if_pos hb, Nat.add_mul_mod_self_left]
        simp [hb]
      · rw [if_neg hb, Nat.add_mul_mod_self_left]
        simp [hb]
    | succ n =>
      rw [List.getElem_cons_succ, Nat.testBit_add_one]
      have hdiv : ((if name[wi]? = some '-' then 1 else 0) + 2 * identMask name rest) / 2 =
          identMask name rest := by
        split <;> omega
      rw [hdiv]
      exact ih n (by simpa using hn)

/-- Applying the identity mask reproduces the input. -/
theorem applyMask_identMask (name : List Char) :
    applyMask name (wildcardIndexs name) (identMask name (wildcardIndexs name)) 0 = name := by
  apply List.ext_getElem?
  intro j
  by_cases hj : j ∈ wildcardIndexs name
  · obtain ⟨n, hn, rfl⟩ := List.mem_iff_getElem.mp hj
    rw [applyMask_getElem?_at _ (wildcardIndexs_pairwise name) name _ 0 n hn
      (mem_wildcard_lt_length name _ (List.getElem_mem hn))]
    rw [Nat.zero_add, identMask_testBit name _ n hn]
    have hsep := (mem_sepIndexesAll name _).mp
      (List.Sublist.mem (List.getElem_mem hn) (wildcardIndexs_sublist name))
    by_cases hb : name[(wildcardIndexs name)[n]]? = some '-'
    · rw [decide_eq_true hb, if_pos rfl, hb]
    · rw [decide_eq_false hb, if_neg (by simp)]
      rcases hsep with h | h
      · exact absurd h hb
      · rw [h]
  · exact applyMask_getElem?_not_mem _ _ _ _ _ hj

/-- The requested name is always one of its own variants. -/
theorem self_mem_gen (name : List Char) : name ∈ gen_fuzzy_crate_names name := by
  rw [gen_fuzzy_crate_names]
  by_cases hempty : (wildcardIndexs name).isEmpty
  · rw [if_pos hempty]
    exact List.mem_cons_self _ _
  · rw [if_neg hempty, List.mem_map]
    exact ⟨identMask name (wildcardIndexs name),
      List.mem_range.mpr (identMask_lt name _), applyMask_identMask name⟩

/-- Setting the `n`-th listed position to the opposite character is the
same as applying the mask with bit `n` flipped. -/
theorem applyMask_set_xor (name : List Char) (idxs : List Nat) (hp : idxs.Pairwise (· < ·))
    (hlen : ∀ i ∈ idxs, i < name.length) (m n : Nat) (hn : n < idxs.length) :
    (applyMask name idxs m 0).set idxs[n] (if m.testBit n then '_' else '-') =
      applyMask name idxs (m ^^^ (1 <<< n)) 0 := by
  have hxn : (m ^^^ (1 <<< n)).testBit n = !m.testBit n := by
    rw [Nat.testBit_xor, Nat.shiftLeft_eq, one_mul, Nat.testBit_two_pow]
    simp
  have hxother : ∀ n', n' ≠ n → (m ^^^ (1 <<< n)).testBit n' = m.testBit n' := by
    intro n' hne
    rw [Nat.testBit_xor, Nat.shiftLeft_eq, one_mul, Nat.testBit_two_pow]
    simp [Ne.symm hne]
  apply List.ext_getElem?
  intro j
  by_cases hj : j ∈ idxs
  · obtain ⟨n', hn', rfl⟩ := List.mem_iff_getElem.mp hj
    by_cases hne : n' = n
    · subst hne
      rw [List.getElem?_set_self (by rw [applyMask_length]; exact hlen _ (List.getElem_mem hn'))]
      rw [applyMask_getElem?_at idxs hp name (m ^^^ (1 <<< n')) 0 n' hn'
        (hlen _ (List.getElem_mem hn'))]
      rw [Nat.zero_add, hxn]
      by_cases hb : m.testBit n'
      · rw [hb]
        simp
      · rw [eq_false_of_ne_true hb]
        simp
    · have hij : idxs[n] ≠ idxs[n'] := by
        have hp' := List.pairwise_iff_getElem.mp hp
        rcases Nat.lt_trichotomy n n' with h | h | h
        · exact ne_of_lt (hp' n n' hn hn' h)
        · exact absurd h.symm hne
        · exact Ne.symm (ne_of_lt (hp' n' n hn' hn h))
      rw [List.getElem?_set_ne hij]
      rw [applyMask_getElem?_at idxs hp name m 0 n' hn' (hlen _ (List.getElem_mem hn'))]
      rw [applyMask_getElem?_at idxs hp name (m ^^^ (1 <<< n)) 0 n' hn'
        (hlen _ (List.getElem_mem hn'))]
      rw [Nat.zero_add, hxother n' hne]
  · have hnj : idxs[n] ≠ j := fun he => hj (he ▸ List.getElem_mem hn)
    rw [List.getElem?_set_ne hnj, applyMask_getElem?_not_mem _ _ _ _ _ hj,
      applyMask_getElem?_not_mem _ _ _ _ _ hj]

/-- With at most 10 separators, the variant set is closed under
flipping any single separator position. -/
theorem flipAt_mem_gen (name : List Char) (hk : (sepIndexesAll name).length ≤ 10)
    (s : List Char) (hs : s ∈ gen_fuzzy_crate_names name) (i : Nat)
    (hi : i ∈ sepIndexesAll name) :
    flipAt s i ∈ gen_fuzzy_crate_names name := by
  have hidxs : wildcardIndexs name = sepIndexesAll name := List.take_of_length_le hk
  have hiw : i ∈ wildcardIndexs name := by rw [hidxs]; exact hi
  have hne : ¬(wildcardIndexs name).isEmpty := by
    rw [List.isEmpty_iff]
    exact List.ne_nil_of_mem hiw
  rw [gen_fuzzy_crate_names, if_neg hne, List.mem_map] at hs ⊢
  obtain ⟨m, hmr, rfl⟩ := hs
  rw [List.mem_range] at hmr
  obtain ⟨n, hn, rfl⟩ := List.mem_iff_getElem.mp hiw
  refine ⟨m ^^^ (1 <<< n), List.mem_range.mpr ?_, ?_⟩
  · have h2 : (1 <<< n) < 2 ^ (wildcardIndexs name).length := by
      rw [Nat.shiftLeft_eq, one_mul]
      exact Nat.pow_lt_pow_right (by omega) hn
    exact Nat.xor_lt_two_pow hmr h2
  · rw [← applyMask_set_xor name _ (wildcardIndexs_pairwise name)
      (fun j hj => mem_wildcard_lt_length name j hj) m n hn]
    have hat := applyMask_getElem?_at _ (wildcardIndexs_pairwise name) name m 0 n hn
      (mem_wildcard_lt_length name _ (List.getElem_mem hn))
    rw [Nat.zero_add] at hat
    rw [flipAt, hat]
    by_cases hb : m.testBit n
    · rw [hb]
      simp
    · rw [eq_false_of_ne_true hb]
      simp

/-- C3: variant generation for a name with at most 10 separator bytes. -/
theorem gen_fuzzy_variants_complete (name : List Char)
    (hk : (sepIndexesAll name).length ≤ 10) : genSound name := by
  have hidxs : wildcardIndexs name = sepIndexesAll name := List.take_of_length_le hk
  by_cases hnil : sepIndexesAll name = []
  · have hempty : (wildcardIndexs name).isEmpty := by
      rw [hidxs, hnil]
      rfl
    have hgen : gen_fuzzy_crate_names name = [name] := by
      rw [gen_fuzzy_crate_names, if_pos hempty]
    refine ⟨?_, ?_, ?_, ?_, fun _ => hgen⟩
    · rw [hgen, hnil]
      rfl
    · rw [hgen]
      exact List.nodup_singleton name
    · rw [hgen]
      intro s hs
      rw [List.mem_singleton] at hs
      subst hs
      refine ⟨rfl, fun j _ => rfl, ?_⟩
      intro i hi
      rw [hnil] at hi
      cases hi
    · rw [hgen]
      intro s _ i hi
      rw [hnil] at hi
      cases hi
  · have hne : ¬(wildcardIndexs name).isEmpty := by
      rw [hidxs, List.isEmpty_iff]
      exact hnil
    refine ⟨?_, ?_, ?_, fun s hs i hi => flipAt_mem_gen name hk s hs i hi,
      fun h => absurd h hnil⟩
    · rw [gen_fuzzy_crate_names, if_neg hne, List.length_map, List.length_range, hidxs]
    · rw [gen_fuzzy_crate_names, if_neg hne]
      refine List.Nodup.map_on ?_ (List.nodup_range _)
      intro m1 hm1 m2 hm2 heq
      exact applyMask_inj _ (wildcardIndexs_pairwise name) name
        (fun j hj => mem_wildcard_lt_length name j hj) m1 m2
        (List.mem_range.mp hm1) (List.mem_range.mp hm2) heq
    · intro s hs
      rw [gen_fuzzy_crate_names, if_neg hne, List.mem_map] at hs
      obtain ⟨m, hm, rfl⟩ := hs
      refine ⟨applyMask_length _ _ _ _, ?_, ?_⟩
      · intro j hj
        exact applyMask_getElem?_not_mem _ _ _ _ _ fun hmem => hj (hidxs ▸ hmem)
      · intro i hi
        obtain ⟨n, hn, rfl⟩ :=
          List.mem_iff_getElem.mp (show i ∈ wildcardIndexs name by rw [hidxs]; exact hi)
        rw [applyMask_getElem?_at _ (wildcardIndexs_pairwise name) name m 0 n hn
          (mem_wildcard_lt_length name _ (List.getElem_mem hn))]
        by_cases hb : m.testBit (0 + n)
        · rw [if_pos hb]
          exact Or.inl rfl
        · rw [if_neg hb]
          exact Or.inr rfl

/-- Witness for C3 at the name `DC-_janus` (two separators). -/
theorem gen_fuzzy_variants_complete_witness :
    (sepIndexesAll (("DC-_janus").data)).length ≤ 10 ∧ genSound (("DC-_janus").data) :=
  ⟨by decide, gen_fuzzy_variants_complete _ (by decide)⟩

/-- C4: variant generation for a name with more than 10 separator
bytes varies only the first 10 separator positions. -/
theorem gen_fuzzy_cap_ten (name : List Char)
    (hk : 10 < (sepIndexesAll name).length) : capSound name := by
  have hlen10 : (wildcardIndexs name).length = 10 := by
    rw [wildcardIndexs, List.length_take]
    exact min_eq_left (le_of_lt hk)
  have hne : ¬(wildcardIndexs name).isEmpty := by
    rw [List.isEmpty_iff]
    intro h
    rw [h] at hlen10
    simp at hlen10
  have hnodup : (sepIndexesAll name).Nodup :=
    (sepIndexesAll_pairwise name).imp fun h => ne_of_lt h
  constructor
  · rw [gen_fuzzy_crate_names, if_neg hne, List.length_map, List.length_range, hlen10]
    rfl
  · intro s hs
    rw [gen_fuzzy_crate_names, if_neg hne, List.mem_map] at hs
    obtain ⟨m, _, rfl⟩ := hs
    refine ⟨applyMask_length _ _ _ _,
      fun j hj => applyMask_getElem?_not_mem _ _ _ _ _ hj, ?_⟩
    intro j hj
    have hjn : j ∉ wildcardIndexs name := by
      rw [wildcardIndexs]
      exact fun hmem => List.disjoint_take_drop hnodup (le_refl 10) hmem hj
    exact applyMask_getElem?_not_mem _ _ _ _ _ hjn

/-- Witness for C4 at a name with 11 separators. -/
theorem gen_fuzzy_cap_ten_witness :
    10 < (sepIndexesAll (("a-b-c-d-e-f-g-h-i-j-k-l").data)).length ∧
      capSound (("a-b-c-d-e-f-g-h-i-j-k-l").data) :=
  ⟨by decide, gen_fuzzy_cap_ten _ (by decide)⟩

/-- Head of a swap-to-front. -/
theorem listSwap_head {α : Type} (l : List α) (i : Nat) (hi : i < l.length)
    (h0 : 0 < l.length) :
    (listSwap l i 0).head? = some (l.get ⟨i, hi⟩) := by
  rw [listSwap, dif_pos ⟨hi, h0⟩, List.head?_eq_getElem?]
  rw [List.getElem?_set_self (by rw [List.length_set]; exact h0)]

/-- C5: the literal requested name is always among the generated
variants, and the ordered variant list used for index lookup puts it
first. -/
theorem requested_name_first (crate_name : List Char) :
    crate_name ∈ gen_fuzzy_crate_names crate_name ∧
      (orderedNames crate_name).head? = some crate_name := by
  refine ⟨self_mem_gen crate_name, ?_⟩
  rw [orderedNames]
  rcases hf : (gen_fuzzy_crate_names crate_name).findIdx? (fun x => x == crate_name) with - | i
  · rw [List.findIdx?_eq_none_iff] at hf
    have := hf crate_name (self_mem_gen crate_name)
    simp at this
  · obtain ⟨hi, hp, -⟩ := List.findIdx?_eq_some_iff_getElem.mp hf
    have hval : (gen_fuzzy_crate_names crate_name)[i] = crate_name := by
      simpa using hp
    rw [listSwap_head _ i hi (lt_of_le_of_lt (Nat.zero_le i) hi)]
    simp [hval]

/-- The loop settles on the first present variant. -/
theorem lookupLoop_append (index : List Char → IndexResult) (names₁ : List (List Char))
    (n : List Char) (names₂ : List (List Char)) (rs : List RawRecord)
    (h1 : ∀ m ∈ names₁, (index m).isFound = false) (h2 : index n = .found rs) :
    lookupLoop index (names₁ ++ n :: names₂) = some (convertVersions rs) := by
  induction names₁ with
  | nil =>
    rw [List.nil_append]
    rw [show lookupLoop index (n :: names₂) =
      (match index n with
        | .found rs => some (convertVersions rs)
        | _ => lookupLoop index names₂) from rfl, h2]
  | cons m names₁ ih =>
    have him := h1 m (List.mem_cons_self m names₁)
    rw [List.cons_append]
    rw [show lookupLoop index (m :: (names₁ ++ n :: names₂)) =
      (match index m with
        | .found rs => some (convertVersions rs)
        | _ => lookupLoop index (names₁ ++ n :: names₂)) from rfl]
    rcases hm : index m with - | - | rs'
    · exact ih fun x hx => h1 x (List.mem_cons_of_mem m hx)
    · exact ih fun x hx => h1 x (List.mem_cons_of_mem m hx)
    · rw [hm] at him
      exact absurd him (by simp [IndexResult.isFound])

/-- The loop finds nothing when no variant is present. -/
theorem lookupLoop_none (index : List Char → IndexResult) (names : List (List Char))
    (h : ∀ m ∈ names, (index m).isFound = false) :
    lookupLoop index names = none := by
  induction names with
  | nil => rfl
  | cons m names ih =>
    have him := h m (List.mem_cons_self m names)
    rw [show lookupLoop index (m :: names) =
      (match index m with
        | .found rs => some (convertVersions rs)
        | _ => lookupLoop index names) from rfl]
    rcases hm : index m with - | - | rs'
    · exact ih fun x hx => h x (List.mem_cons_of_mem m hx)
    · exact ih fun x hx => h x (List.mem_cons_of_mem m hx)
    · rw [hm] at him
      exact absurd him (by simp [IndexResult.isFound])

/-- C6: lookup tries the ordered variants in order and settles on the
record set of the first variant the index resolves to a present
package — a per-variant index error or an absent package advances to
the next variant without surfacing; when no variant resolves the call
fails with the crate-not-found error carrying the originally requested
name. -/
theorem lookup_first_present_wins (index : List Char → IndexResult) (crate_name : List Char) :
    (∀ (names₁ : List (List Char)) (n : List Char) (names₂ : List (List Char))
      (rs : List RawRecord),
      orderedNames crate_name = names₁ ++ n :: names₂ →
      (∀ m ∈ names₁, (index m).isFound = false) →
      index n = .found rs →
      fuzzy_query_registry_index index crate_name = convertVersions rs) ∧
    ((∀ m ∈ orderedNames crate_name, (index m).isFound = false) →
      fuzzy_query_registry_index index crate_name =
        .error (.crateNotFound (String.mk crate_name))) := by
  constructor
  · intro names₁ n names₂ rs horder h1 h2
    rw [fuzzy_query_registry_index, horder, lookupLoop_append index names₁ n names₂ rs h1 h2]
  · intro h
    rw [fuzzy_query_registry_index, lookupLoop_none index _ h]

/-- Witness for C6: an erroring first variant is skipped in favour of
the present second variant, and an all-error index yields the
crate-not-found failure. -/
theorem lookup_first_present_wins_witness :
    (orderedNames (("a-b").data) = [("a-b").data] ++ ("a_b").data :: [] ∧
      (∀ m ∈ [("a-b").data], (idxSample m).isFound = false) ∧
      idxSample (("a_b").data) = .found [sampleRecord] ∧
      fuzzy_query_registry_index idxSample (("a-b").data) = convertVersions [sampleRecord]) ∧
    ((∀ m ∈ orderedNames (("a-b").data), (idxAbsent m).isFound = false) ∧
      fuzzy_query_registry_index idxAbsent (("a-b").data) =
        .error (.crateNotFound (String.mk (("a-b").data)))) :=
  ⟨⟨by decide, by decide, by decide,
      (lookup_first_present_wins idxSample (("a-b").data)).1 [("a-b").data] (("a_b").data) []
        [sampleRecord] (by decide) (by decide) (by decide)⟩,
    ⟨by decide, (lookup_first_present_wins idxAbsent (("a-b").data)).2 (by decide)⟩⟩

/-- A present but unparsable `rust-version` string fails the
transpose step. -/
theorem convertRustVersion_some_none (s : String) (hrv : rustVersionFromStr s = none) :
    convertRustVersion (some s) = .error (.invalidToolchainSpec s) := by
  rw [convertRustVersion, hrv]

/-- The conversion of a record list, one step. -/
theorem convertVersions_cons (r : RawRecord) (rest : List RawRecord) :
    convertVersions (r :: rest) =
      match convertRecord r with
      | .error e => .error e
      | .ok v =>
        match convertVersions rest with
        | .error e => .error e
        | .ok vs => .ok (v :: vs) := by
  rw [convertVersions, List.mapM_cons]
  cases convertRecord r
  · rfl
  · rw [show convertVersions rest = List.mapM convertRecord rest from rfl]
    cases List.mapM convertRecord rest <;> rfl

/-- A record whose version or `rust-version` string does not parse
converts to an error. -/
theorem convertRecord_error (r : RawRecord)
    (h : parseVersion r.version = none ∨
      ∃ s, r.rust_version = some s ∧ rustVersionFromStr s = none) :
    ∃ e, convertRecord r = .error e := by
  rcases h with h | ⟨s, hs, hrv⟩
  · exact ⟨.invalidVersionSpec r.version, by rw [convertRecord, h]⟩
  · rcases hv : parseVersion r.version with - | v
    · exact ⟨.invalidVersionSpec r.version, by rw [convertRecord, hv]⟩
    · exact ⟨.invalidToolchainSpec s,
        by rw [convertRecord, hv, hs, convertRustVersion_some_none s hrv]⟩

/-- A record list containing an unparsable record converts to an
error. -/
theorem convertVersions_error (rs : List RawRecord)
    (h : ∃ r ∈ rs, parseVersion r.version = none ∨
      ∃ s, r.rust_version = some s ∧ rustVersionFromStr s = none) :
    ∃ e, convertVersions rs = .error e := by
  induction rs with
  | nil => simp at h
  | cons r rest ih =>
    obtain ⟨r', hr', hbad⟩ := h
    rw [List.mem_cons] at hr'
    rcases hr' with rfl | hr'
    · obtain ⟨e, he⟩ := convertRecord_error r' hbad
      exact ⟨e, by rw [convertVersions_cons, he]⟩
    · rcases hcv : convertRecord r with e | v
      · exact ⟨e, by rw [convertVersions_cons, hcv]⟩
      · obtain ⟨e, he⟩ := ih ⟨r', hr', hbad⟩
        exact ⟨e, by rw [convertVersions_cons, hcv, he]⟩

/-- C10: if the first variant the index resolves contains a record
whose version string or `rust-version` string fails parsing, the whole
call fails with that parse error, whatever the index holds for the
later variants; and such an unparsable record always makes the
conversion fail. -/
theorem first_variant_parse_error_aborts :
    (∀ (index : List Char → IndexResult) (crate_name : List Char)
      (names₁ : List (List Char)) (n : List Char) (names₂ : List (List Char))
      (rs : List RawRecord) (e : ResolutionError),
      orderedNames crate_name = names₁ ++ n :: names₂ →
      (∀ m ∈ names₁, (index m).isFound = false) →
      index n = .found rs →
      convertVersions rs = .error e →
      fuzzy_query_registry_index index crate_name = .error e) ∧
    (∀ rs : List RawRecord,
      (∃ r ∈ rs, parseVersion r.version = none ∨
        ∃ s, r.rust_version = some s ∧ rustVersionFromStr s = none) →
      ∃ e, convertVersions rs = .error e) := by
  constructor
  · intro index crate_name names₁ n names₂ rs e horder h1 h2 hconv
    rw [fuzzy_query_registry_index, horder, lookupLoop_append index names₁ n names₂ rs h1 h2]
    exact hconv
  · exact convertVersions_error

/-- Witness for C10: the unparsable record of the first present
variant fails the whole call with its parse error. -/
theorem first_variant_parse_error_aborts_witness :
    (orderedNames (("a-b").data) = [("a-b").data] ++ ("a_b").data :: [] ∧
      (∀ m ∈ [("a-b").data], (idxBad m).isFound = false) ∧
      idxBad (("a_b").data) = .found [badRecord] ∧
      convertVersions [badRecord] = .error (.invalidVersionSpec ("oops")) ∧
      fuzzy_query_registry_index idxBad (("a-b").data) =
        .error (.invalidVersionSpec ("oops"))) ∧
    (∃ e, convertVersions [badRecord] = .error e) :=
  ⟨⟨by decide, by decide, by decide, by decide,
      first_variant_parse_error_aborts.1 idxBad (("a-b").data) [("a-b").data] (("a_b").data) []
        [badRecord] (.invalidVersionSpec ("oops")) (by decide) (by decide) (by decide) (by decide)⟩,
    first_variant_parse_error_aborts.2 [badRecord]
      ⟨badRecord, List.mem_cons_self badRecord [], Or.inl (by decide)⟩⟩
